import Mathlib

/-!
Verification of the trace-driven set-associative cache simulator.

The repository holds two near-identical C++ programs:

* `IMT2023048_031_045_Code.cpp` — on each access only the touched
  (hit or newly installed) line's `LRUcount` is updated
  (the *touch-only* recency variant);
* `modified.cpp` — additionally every other valid line of the set has its
  `LRUcount` incremented by one on every access
  (the *full-order* recency variant).

Both share `getIndex`/`getTag` address decoding, the `CacheAccess`
hit-scan / victim-scan, and the `simulateCache` driver that guards
`cacheLineNum == 0` and accumulates `hit`/`miss`/`accesscount`.
Machine integers are modelled as `Nat`; the `uint32_t` sentinel
`numeric_limits<uint32_t>::max()` used to seed the victim scan is kept
explicit as `UINT32_MAX`.
-/

/-- One cache line, mirroring the C++ `CacheLine` struct: a validity flag,
the stored tag, and the recency counter `LRUcount`. Fresh lines are
`⟨false, 0, 0⟩`. -/
structure CacheLine where
  valid : Bool
  tag : Nat
  LRUcount : Nat
  deriving DecidableEq

/-- Which of the two source programs' recency-update strategies is run:
`touchOnly` is `IMT2023048_031_045_Code.cpp`, `fullOrder` is
`modified.cpp`. -/
inductive Policy where
  | touchOnly
  | fullOrder
  deriving DecidableEq

/-- Fuel-driven binary logarithm; with enough fuel it agrees with
`Nat.log2` (see `log2F_eq_log2`) while staying kernel-reducible. -/
def log2F : Nat → Nat → Nat
  | 0, _ => 0
  | fuel + 1, n => if n ≥ 2 then log2F fuel (n / 2) + 1 else 0

/-- Integer base-two logarithm, the value `(uint32_t)log2(x)` takes on the
power-of-two arguments the simulator feeds it. -/
def log2 (n : Nat) : Nat :=
  log2F n n

/-- Index bits of an address: `(address >> offsetBits) & ((1 << indexBits) - 1)`
with `offsetBits = log2 blockSize` and `indexBits = log2 cacheLineNum`,
as in the C++ `getIndex`. -/
def getIndex (address blockSize cacheLineNum : Nat) : Nat :=
  let offsetBits := log2 blockSize
  let indexBits := log2 cacheLineNum
  (address >>> offsetBits) &&& (2 ^ indexBits - 1)

/-- Tag bits of an address: `address >> (offsetBits + indexBits)`, as in the
C++ `getTag`. -/
def getTag (address blockSize cacheLineNum : Nat) : Nat :=
  let offsetBits := log2 blockSize
  let indexBits := log2 cacheLineNum
  address >>> (offsetBits + indexBits)

/-- The largest `uint32_t` value, the initial `minUsed` of the victim scan. -/
def UINT32_MAX : Nat := 2 ^ 32 - 1

/-- The victim-selection loop of `CacheAccess`: `i` is the loop counter,
`tracker` the current candidate index, `minUsed` the smallest recency seen
so far. The first invalid line wins outright (`break`); otherwise the
candidate is replaced exactly on a strictly smaller `LRUcount`. -/
def findVictimGo (i tracker minUsed : Nat) : List CacheLine → Nat
  | [] => tracker
  | l :: rest =>
    if !l.valid then i
    else if l.LRUcount < minUsed then findVictimGo (i + 1) i l.LRUcount rest
    else findVictimGo (i + 1) tracker minUsed rest

/-- Victim index chosen on a miss, starting the scan with `tracker = 0` and
`minUsed = numeric_limits<uint32_t>::max()`. -/
def findVictim (lines : List CacheLine) : Nat :=
  findVictimGo 0 0 UINT32_MAX lines

/-- Overwrite line `i`'s recency with `now`, leaving everything else alone
(the hit update `lines[i].LRUcount = accesscount++`). -/
def setLRUAt : Nat → Nat → List CacheLine → List CacheLine
  | _, _, [] => []
  | 0, now, l :: rest => { l with LRUcount := now } :: rest
  | i + 1, now, l :: rest => l :: setLRUAt i now rest

/-- The extra loop of `modified.cpp`: starting at position `k`, increment the
recency of every valid line except the one at position `i`. -/
def bumpOthers (i : Nat) : Nat → List CacheLine → List CacheLine
  | _, [] => []
  | k, l :: rest =>
    (if k ≠ i ∧ l.valid then { l with LRUcount := l.LRUcount + 1 } else l) ::
      bumpOthers i (k + 1) rest

/-- One access to a single set, returning whether it hit together with the
updated lines. The hit scan takes the first valid line with a matching tag;
otherwise the line at `findVictim` is overwritten with
`⟨true, tag, now⟩`. Under `fullOrder` every other valid line's recency is
then incremented, exactly as in `modified.cpp`. -/
def setAccess (p : Policy) (tag now : Nat) (lines : List CacheLine) :
    Bool × List CacheLine :=
  match lines.findIdx? (fun l => l.valid && l.tag == tag) with
  | some i =>
    (true,
      match p with
      | .touchOnly => setLRUAt i now lines
      | .fullOrder => bumpOthers i 0 (setLRUAt i now lines))
  | none =>
    let t := findVictim lines
    (false,
      match p with
      | .touchOnly => lines.set t ⟨true, tag, now⟩
      | .fullOrder => bumpOthers t 0 (lines.set t ⟨true, tag, now⟩))

/-- Whole-simulation state: the two-level cache array plus the three
counters `hit`, `miss`, `accesscount` that the C++ keeps as globals reset
per run. -/
structure SimState where
  cache : List (List CacheLine)
  hit : Nat
  miss : Nat
  accesscount : Nat
  deriving DecidableEq

/-- The C++ `CacheAccess`: decode `(index, tag)`, access set `index`, bump
exactly one of `hit`/`miss`, and advance `accesscount` (its pre-increment
value is the recency stamp `now`). Also returns the hit/miss outcome. -/
def CacheAccess (p : Policy) (blockSize cacheLineNum : Nat) (st : SimState)
    (address : Nat) : SimState × Bool :=
  let index := getIndex address blockSize cacheLineNum
  let tag := getTag address blockSize cacheLineNum
  let r := setAccess p tag st.accesscount (st.cache.getD index [])
  ({ cache := st.cache.set index r.2
     hit := if r.1 then st.hit + 1 else st.hit
     miss := if r.1 then st.miss else st.miss + 1
     accesscount := st.accesscount + 1 }, r.1)

/-- A freshly constructed cache: `cacheLineNum` sets of `associativity`
invalid lines, all counters zero. -/
def initState (cacheLineNum assoc : Nat) : SimState :=
  { cache := List.replicate cacheLineNum (List.replicate assoc ⟨false, 0, 0⟩)
    hit := 0
    miss := 0
    accesscount := 0 }

/-- Replay an address trace against a freshly constructed cache. -/
def replay (p : Policy) (blockSize cacheLineNum assoc : Nat)
    (addrs : List Nat) : SimState :=
  addrs.foldl (fun st a => (CacheAccess p blockSize cacheLineNum st a).1)
    (initState cacheLineNum assoc)

/-- Per-access hit/miss classification along a replay, starting from `st`. -/
def outcomesFrom (p : Policy) (blockSize cacheLineNum : Nat) :
    SimState → List Nat → List Bool
  | _, [] => []
  | st, a :: rest =>
    let r := CacheAccess p blockSize cacheLineNum st a
    r.2 :: outcomesFrom p blockSize cacheLineNum r.1 rest

/-- Per-access hit/miss classification of a trace against a fresh cache
(`true` = hit). -/
def outcomes (p : Policy) (blockSize cacheLineNum assoc : Nat)
    (addrs : List Nat) : List Bool :=
  outcomesFrom p blockSize cacheLineNum (initState cacheLineNum assoc) addrs

/-- The C++ `simulateCache` driver: compute
`cacheLineNum = cacheSize / (blockSize * setAssociativity)` by integer
division; if it is zero, report the invalid configuration and produce no
result (`none`); otherwise build a fresh cache and replay the trace. -/
def simulateCache (p : Policy) (cacheSize blockSize assoc : Nat)
    (addrs : List Nat) : Option SimState :=
  let cacheLineNum := cacheSize / (blockSize * assoc)
  if cacheLineNum = 0 then none
  else some (replay p blockSize cacheLineNum assoc addrs)

/-- Hit rate in percent, the exact-arithmetic reading of the C++
`(double)hit / (hit + miss) * 100`. -/
def hitRatePercent (st : SimState) : ℚ :=
  (st.hit : ℚ) / ((st.hit : ℚ) + (st.miss : ℚ)) * 100

/-- The denominator `hit + miss` of the rate computation at the end of
`simulateCache`; the C++ divides by it unconditionally. -/
def rateDenominator (st : SimState) : Nat :=
  st.hit + st.miss

/-- Tags of the valid lines of a set, in index order. -/
def validTags (lines : List CacheLine) : List Nat :=
  (lines.filter (fun l => l.valid)).map (fun l => l.tag)

/-- First invalid line of a set, if any. -/
def firstInvalidIdx? (lines : List CacheLine) : Option Nat :=
  lines.findIdx? (fun l => !l.valid)

/-- Numerically smallest recency value held by the lines of a (nonempty)
set. -/
def minRecency (lines : List CacheLine) : Nat :=
  match lines.map (fun l => l.LRUcount) with
  | [] => 0
  | x :: xs => xs.foldl min x

/-- Victim choice as the specification words it: the first invalid line in
index order; if every line is valid, the valid line with the numerically
smallest recency value, ties broken by the lowest index. -/
def victimSpec (lines : List CacheLine) : Nat :=
  match firstInvalidIdx? lines with
  | some i => i
  | none =>
    (lines.map (fun l => l.LRUcount)).findIdx (fun x => x == minRecency lines)

/-- Abstract argmin scan underlying the valid-lines part of the victim
loop: replace the candidate exactly on a strictly smaller value. -/
def selMin (i tracker m : Nat) : List Nat → Nat
  | [] => tracker
  | x :: rest =>
    if x < m then selMin (i + 1) i x rest else selMin (i + 1) tracker m rest

/-! ### Lemmas about the fuelled logarithm and address decoding -/

theorem log2F_eq_log2 (fuel : Nat) : ∀ n, n ≤ fuel → log2F fuel n = Nat.log2 n := by
  induction fuel with
  | zero =>
    intro n hn
    have hz : n = 0 := by omega
    subst hz
    unfold Nat.log2
    simp [log2F]
  | succ f ih =>
    intro n hn
    unfold Nat.log2
    simp only [log2F]
    by_cases h2 : n ≥ 2
    · rw [if_pos h2, if_pos h2, ih (n / 2) (by omega)]
    · rw [if_neg h2, if_neg h2]

theorem log2_eq_natLog2 (n : Nat) : log2 n = Nat.log2 n :=
  log2F_eq_log2 n n le_rfl

theorem log2_pow (k : Nat) : log2 (2 ^ k) = k := by
  rw [log2_eq_natLog2]
  exact Nat.log2_two_pow

/-! ### Counter bookkeeping -/

theorem CacheAccess_hit_add_miss (p : Policy) (bs cln : Nat) (st : SimState)
    (a : Nat) :
    ((CacheAccess p bs cln st a).1).hit + ((CacheAccess p bs cln st a).1).miss
      = st.hit + st.miss + 1 := by
  simp only [CacheAccess]
  cases (setAccess p (getTag a bs cln) st.accesscount
      (st.cache.getD (getIndex a bs cln) [])).1 <;> simp <;> omega

theorem CacheAccess_cache_length (p : Policy) (bs cln : Nat) (st : SimState)
    (a : Nat) :
    ((CacheAccess p bs cln st a).1).cache.length = st.cache.length := by
  simp [CacheAccess]

theorem foldl_access_hit_add_miss (p : Policy) (bs cln : Nat) :
    ∀ (addrs : List Nat) (st : SimState),
      ((addrs.foldl (fun st a => (CacheAccess p bs cln st a).1) st)).hit
        + ((addrs.foldl (fun st a => (CacheAccess p bs cln st a).1) st)).miss
        = st.hit + st.miss + addrs.length := by
  intro addrs
  induction addrs with
  | nil => intro st; simp
  | cons x xs ih =>
    intro st
    rw [List.foldl_cons, ih, CacheAccess_hit_add_miss]
    simp
    omega

theorem foldl_access_cache_length (p : Policy) (bs cln : Nat) :
    ∀ (addrs : List Nat) (st : SimState),
      ((addrs.foldl (fun st a => (CacheAccess p bs cln st a).1) st)).cache.length
        = st.cache.length := by
  intro addrs
  induction addrs with
  | nil => intro st; rfl
  | cons x xs ih =>
    intro st
    rw [List.foldl_cons, ih, CacheAccess_cache_length]

theorem replay_cache_length (p : Policy) (bs cln assoc : Nat)
    (addrs : List Nat) :
    (replay p bs cln assoc addrs).cache.length = cln := by
  unfold replay
  rw [foldl_access_cache_length]
  simp [initState]

/-! ### Claim theorems (concrete scenarios and counters) -/

/-- C6: after replaying any sequence of N accesses against a freshly
constructed cache, the hit counter plus the miss counter equals N exactly:
each access increments exactly one of the two counters. -/
theorem hits_plus_misses_eq_accesses (p : Policy) (bs cln assoc : Nat)
    (addrs : List Nat) :
    (replay p bs cln assoc addrs).hit + (replay p bs cln assoc addrs).miss
      = addrs.length := by
  unfold replay
  rw [foldl_access_hit_add_miss]
  simp [initState]

/-- C9: when `cacheSize / (blockSize * associativity)` computes to zero by
integer division, `simulateCache` reports the invalid configuration and
produces no result: no cache is built and no accesses run. -/
theorem zero_sets_config_skipped (p : Policy) (cs bs a : Nat)
    (addrs : List Nat) (h : cs / (bs * a) = 0) :
    simulateCache p cs bs a addrs = none := by
  simp [simulateCache, h]

theorem zero_sets_config_skipped_witness :
    simulateCache .touchOnly 31 16 2 [0] = none :=
  zero_sets_config_skipped .touchOnly 31 16 2 [0] (by norm_num)

/-- C2 (failing input): on the empty trace with the valid configuration
`cacheSize = 1024, blockSize = 16, associativity = 1`, `simulateCache`
produces a result whose rate denominator `hit + miss` is zero, so the
unguarded `(double)hit / (hit + miss) * 100` at the end of `simulateCache`
divides by zero instead of reporting a missing value. -/
theorem empty_trace_rate_denominator_zero :
    (simulateCache .touchOnly 1024 16 1 []).map rateDenominator = some 0 ∧
    (simulateCache .fullOrder 1024 16 1 []).map rateDenominator = some 0 :=
  ⟨by decide, by decide⟩

/-- C3: the trace `[0x0, 0x0, 0x10, 0x0]` with `blockSize = 16`,
`numSets = 1`, `associativity = 1` classifies as Miss, Hit, Miss, Miss
(tag 0 installed by the first miss, then evicted by `0x10`'s tag 1),
with final counters `hits = 1`, `misses = 3` and hit rate 25%. -/
theorem end_to_end_single_set_trace :
    outcomes .touchOnly 16 1 1 [0x0, 0x0, 0x10, 0x0]
        = [false, true, false, false] ∧
    outcomes .fullOrder 16 1 1 [0x0, 0x0, 0x10, 0x0]
        = [false, true, false, false] ∧
    validTags ((replay .touchOnly 16 1 1 [0x0]).cache.getD 0 []) = [0] ∧
    validTags ((replay .touchOnly 16 1 1 [0x0, 0x0, 0x10]).cache.getD 0 [])
        = [1] ∧
    (replay .touchOnly 16 1 1 [0x0, 0x0, 0x10, 0x0]).hit = 1 ∧
    (replay .touchOnly 16 1 1 [0x0, 0x0, 0x10, 0x0]).miss = 3 ∧
    (replay .fullOrder 16 1 1 [0x0, 0x0, 0x10, 0x0]).hit = 1 ∧
    (replay .fullOrder 16 1 1 [0x0, 0x0, 0x10, 0x0]).miss = 3 ∧
    hitRatePercent (replay .touchOnly 16 1 1 [0x0, 0x0, 0x10, 0x0]) = 25 := by
  refine ⟨by decide, by decide, by decide, by decide, by decide, by decide,
    by decide, by decide, ?_⟩
  have h1 : (replay .touchOnly 16 1 1 [0x0, 0x0, 0x10, 0x0]).hit = 1 := by
    decide
  have h2 : (replay .touchOnly 16 1 1 [0x0, 0x0, 0x10, 0x0]).miss = 3 := by
    decide
  simp only [hitRatePercent, h1, h2]
  norm_num

/-- C1 (failing input): under the full-order variant with associativity 2,
the trace tag A = 1, tag B = 2, tag A again (a hit), then tag C = 3
(`blockSize = 1`, `numSets = 1`) ends with valid tags `[3, 2]`: C's miss
evicted A's line (way 0), not B's line, because the full-order update keeps
every valid line's recency equal, so the victim scan always settles on
way 0 of a full set. -/
theorem full_order_ABAC_evicts_A :
    outcomes .fullOrder 1 1 2 [1, 2, 1, 3] = [false, false, true, false] ∧
    validTags ((replay .fullOrder 1 1 2 [1, 2, 1, 3]).cache.getD 0 [])
        = [3, 2] ∧
    validTags ((replay .touchOnly 1 1 2 [1, 2, 1, 3]).cache.getD 0 [])
        = [1, 3] :=
  ⟨by decide, by decide, by decide⟩

/-- C7: the touch-only and full-order variants are observably different
replacement algorithms: on `blockSize = 1`, `numSets = 1`,
`associativity = 2` and the trace `[1, 2, 1, 3, 2]` their per-access
hit/miss classifications differ (the fifth access hits under full-order
but misses under touch-only). -/
theorem variants_observably_differ :
    ∃ (bs cln assoc : Nat) (addrs : List Nat),
      outcomes .touchOnly bs cln assoc addrs
        ≠ outcomes .fullOrder bs cln assoc addrs :=
  ⟨1, 1, 2, [1, 2, 1, 3, 2], by decide⟩

/-- C8: for power-of-two `blockSize` and `numSets`, the decoded index is
`(address >>> log2 blockSize) &&& (numSets - 1)` and the decoded tag is
`address >>> (log2 blockSize + log2 numSets)`. -/
theorem decode_index_and_tag (a bs ns k j : Nat)
    (hbs : bs = 2 ^ k) (hns : ns = 2 ^ j) :
    getIndex a bs ns = (a >>> Nat.log2 bs) &&& (ns - 1) ∧
    getTag a bs ns = a >>> (Nat.log2 bs + Nat.log2 ns) := by
  subst hns
  constructor
  · simp only [getIndex, log2_eq_natLog2, Nat.log2_two_pow]
  · simp only [getTag, log2_eq_natLog2]

theorem decode_index_and_tag_witness :
    getIndex 43981 16 4 = (43981 >>> Nat.log2 16) &&& (4 - 1) ∧
    getTag 43981 16 4 = 43981 >>> (Nat.log2 16 + Nat.log2 4) :=
  decode_index_and_tag 43981 16 4 4 2 (by norm_num) (by norm_num)

/-- C10: for a 32-bit address and power-of-two `blockSize` and
`cacheLineNum`, the decoded index is strictly below `cacheLineNum`, and the
replayed cache always holds exactly `cacheLineNum` sets, so the lookup
`cache[index]` in `CacheAccess` stays in bounds. -/
theorem getIndex_lt_cacheLineNum (p : Policy) (a bs cln assoc k j : Nat)
    (addrs : List Nat) (ha : a < 2 ^ 32) (hbs : bs = 2 ^ k)
    (hcln : cln = 2 ^ j) :
    getIndex a bs cln < cln ∧
    (replay p bs cln assoc addrs).cache.length = cln := by
  subst hcln
  refine ⟨?_, replay_cache_length ..⟩
  simp only [getIndex, log2_pow, Nat.and_pow_two_sub_one_eq_mod]
  exact Nat.mod_lt _ (Nat.pos_pow_of_pos j (by norm_num))

theorem getIndex_lt_cacheLineNum_witness :
    getIndex 43981 16 4 < 4 ∧
    (replay .touchOnly 16 4 2 [0, 16, 43981]).cache.length = 4 :=
  getIndex_lt_cacheLineNum .touchOnly 43981 16 4 2 4 2 [0, 16, 43981]
    (by norm_num) (by norm_num) (by norm_num)

/-! ### The victim scan computes the first-invalid / first-minimum index -/

theorem foldr_min_le_init (xs : List Nat) (m : Nat) : xs.foldr min m ≤ m := by
  induction xs with
  | nil => exact le_rfl
  | cons x t ih =>
    calc (x :: t).foldr min m = min x (t.foldr min m) := by rfl
    _ ≤ t.foldr min m := min_le_right ..
    _ ≤ m := ih

theorem foldr_min_le_mem (xs : List Nat) (m y : Nat) (hy : y ∈ xs) :
    xs.foldr min m ≤ y := by
  induction xs with
  | nil => cases hy
  | cons x t ih =>
    rcases List.mem_cons.mp hy with h | h
    · subst h
      exact min_le_left ..
    · exact le_trans (min_le_right ..) (ih h)

theorem min_foldr_min (x m : Nat) (t : List Nat) :
    min x (t.foldr min m) = t.foldr min (min x m) := by
  induction t generalizing x with
  | nil => rfl
  | cons y t' ih =>
    calc min x ((y :: t').foldr min m) = min x (min y (t'.foldr min m)) := by rfl
    _ = min y (min x (t'.foldr min m)) := min_left_comm ..
    _ = min y (t'.foldr min (min x m)) := by rw [ih]
    _ = (y :: t').foldr min (min x m) := by rfl

theorem foldl_min_eq_foldr (t : List Nat) : ∀ a, t.foldl min a = t.foldr min a := by
  induction t with
  | nil => intro a; rfl
  | cons y t' ih =>
    intro a
    calc (y :: t').foldl min a = t'.foldl min (min a y) := by rfl
    _ = t'.foldr min (min a y) := ih ..
    _ = t'.foldr min (min y a) := by rw [min_comm a y]
    _ = min y (t'.foldr min a) := (min_foldr_min ..).symm
    _ = (y :: t').foldr min a := by rfl

theorem foldr_min_big_init (t : List Nat) : ∀ (x M : Nat), x ≤ M →
    (∀ y ∈ t, y ≤ M) → (x :: t).foldr min M = t.foldr min x := by
  induction t with
  | nil =>
    intro x M hx _
    simpa using min_eq_left hx
  | cons y t' ih =>
    intro x M hx hM
    have hy : y ≤ M := hM y (List.mem_cons_self ..)
    have hM' : ∀ z ∈ t', z ≤ M := fun z hz => hM z (List.mem_cons_of_mem _ hz)
    calc (x :: y :: t').foldr min M = min x ((y :: t').foldr min M) := by rfl
    _ = min x (t'.foldr min y) := by rw [ih y M hy hM']
    _ = t'.foldr min (min x y) := min_foldr_min ..
    _ = t'.foldr min (min y x) := by rw [min_comm x y]
    _ = min y (t'.foldr min x) := (min_foldr_min ..).symm
    _ = (y :: t').foldr min x := by rfl

theorem findIdx_congr_on (xs : List Nat) (p q : Nat → Bool)
    (h : ∀ y ∈ xs, p y = q y) : xs.findIdx p = xs.findIdx q := by
  induction xs with
  | nil => rfl
  | cons x t ih =>
    rw [List.findIdx_cons, List.findIdx_cons, h x (List.mem_cons_self ..),
      ih (fun y hy => h y (List.mem_cons_of_mem _ hy))]

theorem selMin_eq (xs : List Nat) : ∀ (i tracker m : Nat),
    selMin i tracker m xs =
      if xs.foldr min m < m
      then i + xs.findIdx (fun y => decide (y ≤ xs.foldr min m))
      else tracker := by
  induction xs with
  | nil =>
    intro i tracker m
    simp [selMin]
  | cons x t ih =>
    intro i tracker m
    by_cases hxm : x < m
    · have hfold : (x :: t).foldr min m = t.foldr min x := by
        calc (x :: t).foldr min m = min x (t.foldr min m) := by rfl
        _ = t.foldr min (min x m) := min_foldr_min ..
        _ = t.foldr min x := by rw [min_eq_left (le_of_lt hxm)]
      have hG : t.foldr min x < m := lt_of_le_of_lt (foldr_min_le_init ..) hxm
      rw [show selMin i tracker m (x :: t) = selMin (i + 1) i x t from by
        simp [selMin, hxm], ih, hfold, if_pos hG]
      by_cases hGx : t.foldr min x < x
      · have hpx : decide (x ≤ t.foldr min x) = false := by
          simp
          omega
        rw [if_pos hGx, List.findIdx_cons, hpx]
        simp
        omega
      · have hGeq : t.foldr min x = x :=
          le_antisymm (foldr_min_le_init ..) (by omega)
        have hpx : decide (x ≤ t.foldr min x) = true := by
          rw [hGeq]
          simp
        rw [if_neg hGx, List.findIdx_cons, hpx]
        simp
    · have hFx : t.foldr min m ≤ x := le_trans (foldr_min_le_init ..) (by omega)
      have hfold : (x :: t).foldr min m = t.foldr min m := by
        calc (x :: t).foldr min m = min x (t.foldr min m) := by rfl
        _ = t.foldr min m := min_eq_right hFx
      rw [show selMin i tracker m (x :: t) = selMin (i + 1) tracker m t from by
        simp [selMin, hxm], ih, hfold]
      by_cases hFm : t.foldr min m < m
      · have hpx : decide (x ≤ t.foldr min m) = false := by
          simp
          omega
        rw [if_pos hFm, if_pos hFm, List.findIdx_cons, hpx]
        simp
        omega
      · rw [if_neg hFm, if_neg hFm]

theorem findVictimGo_eq_selMin :
    ∀ (lines : List CacheLine) (i tracker m : Nat),
      (∀ l ∈ lines, l.valid = true) →
      findVictimGo i tracker m lines
        = selMin i tracker m (lines.map (fun l => l.LRUcount)) := by
  intro lines
  induction lines with
  | nil => intro i tracker m _; rfl
  | cons l t ih =>
    intro i tracker m h
    have hl : l.valid = true := h l (List.mem_cons_self ..)
    have ht : ∀ x ∈ t, x.valid = true := fun x hx => h x (List.mem_cons_of_mem _ hx)
    simp only [findVictimGo, hl, List.map_cons, selMin, Bool.not_true,
      Bool.false_eq_true, if_false]
    by_cases hc : l.LRUcount < m
    · rw [if_pos hc, if_pos hc, ih _ _ _ ht]
    · rw [if_neg hc, if_neg hc, ih _ _ _ ht]

theorem findVictimGo_first_invalid :
    ∀ (lines : List CacheLine) (j : Nat), ∀ (i tracker m : Nat),
      lines.findIdx? (fun l => !l.valid) = some j →
      findVictimGo i tracker m lines = i + j := by
  intro lines
  induction lines with
  | nil => intro j i tracker m h; simp at h
  | cons l t ih =>
    intro j i tracker m h
    rw [List.findIdx?_cons] at h
    by_cases hv : l.valid
    · rw [if_neg (by simp [hv]), List.findIdx?_succ] at h
      rcases Option.map_eq_some'.mp h with ⟨j', hj', rfl⟩
      have : findVictimGo i tracker m (l :: t)
          = if l.LRUcount < m then findVictimGo (i + 1) i l.LRUcount t
            else findVictimGo (i + 1) tracker m t := by
        simp [findVictimGo, hv]
      rw [this]
      by_cases hc : l.LRUcount < m
      · rw [if_pos hc, ih j' _ _ _ hj']
        omega
      · rw [if_neg hc, ih j' _ _ _ hj']
        omega
    · rw [if_pos (by simp [hv])] at h
      have hj : j = 0 := by
        cases h
        rfl
      subst hj
      simp [findVictimGo, hv]

theorem victimSpec_of_invalid (lines : List CacheLine) (j : Nat)
    (h : firstInvalidIdx? lines = some j) : victimSpec lines = j := by
  unfold victimSpec
  rw [h]

theorem victimSpec_of_all_valid (lines : List CacheLine)
    (h : firstInvalidIdx? lines = none) :
    victimSpec lines
      = (lines.map (fun l => l.LRUcount)).findIdx
          (fun x => x == minRecency lines) := by
  unfold victimSpec
  rw [h]

/-- C4: on every miss the victim index is the first invalid line in index
order; if every line is valid, it is the valid line with the numerically
smallest recency value, ties broken by the lowest index (the scan replaces
its candidate only on a strictly smaller value). Recency values are bounded
by the `uint32_t` sentinel that seeds `minUsed`. -/
theorem miss_victim_selection_priority (lines : List CacheLine)
    (hb : ∀ l ∈ lines, l.LRUcount < 2 ^ 32) :
    findVictim lines = victimSpec lines := by
  unfold findVictim
  cases h : firstInvalidIdx? lines with
  | some j =>
    have h' : lines.findIdx? (fun l => !l.valid) = some j := h
    rw [victimSpec_of_invalid lines j h,
      findVictimGo_first_invalid lines j 0 0 UINT32_MAX h']
    omega
  | none =>
    have h' : lines.findIdx? (fun l => !l.valid) = none := h
    have hv : ∀ l ∈ lines, l.valid = true := by
      rw [List.findIdx?_eq_none_iff] at h'
      intro l hl
      simpa using h' l hl
    rw [victimSpec_of_all_valid lines h,
      findVictimGo_eq_selMin lines 0 0 UINT32_MAX hv, selMin_eq]
    have hbx : ∀ y ∈ lines.map (fun l => l.LRUcount), y ≤ UINT32_MAX := by
      intro y hy
      rcases List.mem_map.mp hy with ⟨l, hl, rfl⟩
      exact Nat.le_pred_of_lt (hb l hl)
    rcases hxs : lines.map (fun l => l.LRUcount) with _ | ⟨x, t⟩
    · rw [hxs]
      simp
    · have hx : x ≤ UINT32_MAX := hbx x (by rw [hxs]; exact List.mem_cons_self ..)
      have ht : ∀ y ∈ t, y ≤ UINT32_MAX := fun y hy =>
        hbx y (by rw [hxs]; exact List.mem_cons_of_mem _ hy)
      have hmin : minRecency lines = (x :: t).foldr min UINT32_MAX := by
        have h1 : minRecency lines = t.foldl min x := by rw [minRecency, hxs]
        rw [h1, foldl_min_eq_foldr,
          foldr_min_big_init t x UINT32_MAX hx ht]
      rw [hxs]
      by_cases hlt : (x :: t).foldr min UINT32_MAX < UINT32_MAX
      · rw [if_pos hlt, Nat.zero_add]
        refine findIdx_congr_on _ _ _ ?_
        intro y hy
        have hμy : (x :: t).foldr min UINT32_MAX ≤ y := foldr_min_le_mem _ _ _ hy
        by_cases hyμ : y = minRecency lines
        · rw [hyμ, hmin]
          simp
        · have hne : ¬ (y ≤ (x :: t).foldr min UINT32_MAX) := by
            rw [hmin] at hyμ
            omega
          have hne2 : (y == minRecency lines) = false := by
            simp [hyμ]
          rw [hne2]
          exact decide_eq_false hne
      · have hμ : minRecency lines = x := by
          have h1 : (x :: t).foldr min UINT32_MAX ≤ x :=
            foldr_min_le_mem _ _ _ (List.mem_cons_self ..)
          have h2 : (x :: t).foldr min UINT32_MAX ≤ UINT32_MAX :=
            foldr_min_le_init ..
          rw [hmin]
          omega
        rw [if_neg hlt, List.findIdx_cons]
        simp [hμ]

/-! ### The set invariant: bounded occupancy and distinct valid tags -/

theorem validTags_cons (l : CacheLine) (t : List CacheLine) :
    validTags (l :: t)
      = if l.valid then l.tag :: validTags t else validTags t := by
  by_cases hv : l.valid <;> simp [validTags, List.filter_cons, hv]

theorem mem_validTags (lines : List CacheLine) (y : Nat) :
    y ∈ validTags lines ↔ ∃ l ∈ lines, l.valid = true ∧ l.tag = y := by
  constructor
  · intro hy
    rcases List.mem_map.mp hy with ⟨l, hl, htag⟩
    exact ⟨l, (List.mem_filter.mp hl).1, (List.mem_filter.mp hl).2, htag⟩
  · rintro ⟨l, hl, hval, htag⟩
    exact List.mem_map.mpr ⟨l, List.mem_filter.mpr ⟨hl, hval⟩, htag⟩

theorem validTags_setLRUAt : ∀ (i now : Nat) (lines : List CacheLine),
    validTags (setLRUAt i now lines) = validTags lines := by
  intro i now lines
  induction lines generalizing i with
  | nil => cases i <;> rfl
  | cons l t ih =>
    cases i with
    | zero =>
      cases l with
      | mk v tg c => simp [setLRUAt, validTags_cons]
    | succ j => simp [setLRUAt, validTags_cons, ih]

theorem validTags_bumpOthers : ∀ (i k : Nat) (lines : List CacheLine),
    validTags (bumpOthers i k lines) = validTags lines := by
  intro i k lines
  induction lines generalizing k with
  | nil => rfl
  | cons l t ih =>
    cases l with
    | mk v tg c =>
      by_cases hc : k ≠ i ∧ v = true
      · simp [bumpOthers, hc, validTags_cons, ih]
      · simp [bumpOthers, hc, validTags_cons, ih]

theorem length_setLRUAt : ∀ (i now : Nat) (lines : List CacheLine),
    (setLRUAt i now lines).length = lines.length := by
  intro i now lines
  induction lines generalizing i with
  | nil => cases i <;> rfl
  | cons l t ih =>
    cases i with
    | zero => simp [setLRUAt]
    | succ j => simp [setLRUAt, ih]

theorem length_bumpOthers : ∀ (i k : Nat) (lines : List CacheLine),
    (bumpOthers i k lines).length = lines.length := by
  intro i k lines
  induction lines generalizing k with
  | nil => rfl
  | cons l t ih => simp [bumpOthers, ih]

theorem validTags_set_mem (lines : List CacheLine) (t : Nat) (c : CacheLine)
    (y : Nat) (hy : y ∈ validTags (lines.set t c)) :
    y = c.tag ∨ y ∈ validTags lines := by
  rcases (mem_validTags ..).mp hy with ⟨l, hl, hval, htag⟩
  rcases List.mem_or_eq_of_mem_set hl with h | h
  · exact Or.inr ((mem_validTags ..).mpr ⟨l, h, hval, htag⟩)
  · subst h
    exact Or.inl htag.symm

theorem validTags_set_nodup : ∀ (lines : List CacheLine) (t tg now : Nat),
    tg ∉ validTags lines → (validTags lines).Nodup →
    (validTags (lines.set t ⟨true, tg, now⟩)).Nodup := by
  intro lines
  induction lines with
  | nil => intro t tg now _ _; simp [validTags]
  | cons l rest ih =>
    intro t tg now h1 h2
    cases t with
    | zero =>
      rw [List.set_cons_zero]
      have hvt : validTags ((⟨true, tg, now⟩ : CacheLine) :: rest)
          = tg :: validTags rest := by
        simp [validTags_cons]
      rw [hvt, List.nodup_cons]
      rw [validTags_cons] at h1 h2
      by_cases hv : l.valid
      · rw [if_pos hv] at h1 h2
        rw [List.nodup_cons] at h2
        exact ⟨fun hm => h1 (List.mem_cons_of_mem _ hm), h2.2⟩
      · rw [if_neg hv] at h1 h2
        exact ⟨h1, h2⟩
    | succ j =>
      rw [List.set_cons_succ, validTags_cons]
      rw [validTags_cons] at h1 h2
      by_cases hv : l.valid
      · rw [if_pos hv] at h1 h2 ⊢
        rw [List.nodup_cons] at h2 ⊢
        refine ⟨?_, ih j tg now (fun hm => h1 (List.mem_cons_of_mem _ hm)) h2.2⟩
        intro hmem
        rcases validTags_set_mem rest j ⟨true, tg, now⟩ l.tag hmem with h | h
        · exact h1 (by rw [show tg = l.tag from h.symm]; exact List.mem_cons_self ..)
        · exact h2.1 h
      · rw [if_neg hv] at h1 h2 ⊢
        exact ih j tg now h1 h2

theorem not_mem_validTags_of_no_match (lines : List CacheLine) (tg : Nat)
    (h : lines.findIdx? (fun l => l.valid && l.tag == tg) = none) :
    tg ∉ validTags lines := by
  rw [List.findIdx?_eq_none_iff] at h
  intro hmem
  rcases (mem_validTags ..).mp hmem with ⟨l, hl, hval, htag⟩
  have := h l hl
  simp [hval, htag] at this

theorem setAccess_length (p : Policy) (tg now : Nat) (lines : List CacheLine) :
    ((setAccess p tg now lines).2).length = lines.length := by
  unfold setAccess
  cases hf : lines.findIdx? (fun l => l.valid && l.tag == tg) with
  | some i => cases p <;> simp [length_setLRUAt, length_bumpOthers]
  | none => cases p <;> simp [List.length_set, length_bumpOthers]

theorem setAccess_validTags_nodup (p : Policy) (tg now : Nat)
    (lines : List CacheLine) (h : (validTags lines).Nodup) :
    (validTags (setAccess p tg now lines).2).Nodup := by
  unfold setAccess
  cases hf : lines.findIdx? (fun l => l.valid && l.tag == tg) with
  | some i =>
    cases p <;> simp [validTags_setLRUAt, validTags_bumpOthers, h]
  | none =>
    have hfresh := not_mem_validTags_of_no_match lines tg hf
    cases p <;>
      simp [validTags_bumpOthers, validTags_set_nodup _ _ _ _ hfresh h]

theorem validTags_replicate_invalid (n : Nat) :
    validTags (List.replicate n ⟨false, 0, 0⟩) = [] := by
  induction n with
  | zero => rfl
  | succ k ih => simp [List.replicate_succ _ _, validTags_cons, ih]

theorem CacheAccess_preserves_inv (p : Policy) (bs cln assoc : Nat)
    (st : SimState) (a : Nat)
    (h : ∀ s ∈ st.cache, s.length = assoc ∧ (validTags s).Nodup) :
    ∀ s ∈ ((CacheAccess p bs cln st a).1).cache,
      s.length = assoc ∧ (validTags s).Nodup := by
  intro s hs
  have hs' : s ∈ st.cache.set (getIndex a bs cln)
      (setAccess p (getTag a bs cln) st.accesscount
        (st.cache.getD (getIndex a bs cln) [])).2 := by
    simpa [CacheAccess] using hs
  by_cases hidx : getIndex a bs cln < st.cache.length
  · rcases List.mem_or_eq_of_mem_set hs' with h1 | h1
    · exact h s h1
    · subst h1
      have hmem : st.cache.getD (getIndex a bs cln) [] ∈ st.cache := by
        rw [List.getD_eq_getElem _ _ hidx]
        exact List.getElem_mem hidx
      have h0 := h _ hmem
      refine ⟨?_, setAccess_validTags_nodup _ _ _ _ h0.2⟩
      rw [setAccess_length, h0.1]
  · rw [List.set_eq_of_length_le (by omega)] at hs'
    exact h s hs'

theorem foldl_access_preserves_inv (p : Policy) (bs cln assoc : Nat) :
    ∀ (addrs : List Nat) (st : SimState),
      (∀ s ∈ st.cache, s.length = assoc ∧ (validTags s).Nodup) →
      ∀ s ∈ ((addrs.foldl (fun st a => (CacheAccess p bs cln st a).1) st)).cache,
        s.length = assoc ∧ (validTags s).Nodup := by
  intro addrs
  induction addrs with
  | nil => intro st h; exact h
  | cons x xs ih =>
    intro st h
    rw [List.foldl_cons]
    exact ih _ (CacheAccess_preserves_inv p bs cln assoc st x h)

/-- C5: after any access sequence every set of the cache holds at most
`associativity` valid lines, and no two valid lines of the same set hold an
equal tag. -/
theorem set_invariant_bound_and_distinct_tags (p : Policy)
    (bs cln assoc : Nat) (addrs : List Nat) (s : List CacheLine)
    (hs : s ∈ (replay p bs cln assoc addrs).cache) :
    (s.filter (fun l => l.valid)).length ≤ assoc ∧ (validTags s).Nodup := by
  have hinit : ∀ t ∈ (initState cln assoc).cache,
      t.length = assoc ∧ (validTags t).Nodup := by
    intro t ht
    have := List.eq_of_mem_replicate ht
    subst this
    exact ⟨List.length_replicate .., by
      rw [validTags_replicate_invalid]
      exact List.nodup_nil⟩
  have h := foldl_access_preserves_inv p bs cln assoc addrs
    (initState cln assoc) hinit s hs
  exact ⟨h.1 ▸ List.length_filter_le _ _, h.2⟩

theorem set_invariant_bound_and_distinct_tags_witness :
    ((([⟨true, 1, 0⟩, ⟨true, 2, 1⟩] : List CacheLine).filter
        (fun l => l.valid)).length ≤ 2)
      ∧ (validTags [⟨true, 1, 0⟩, ⟨true, 2, 1⟩]).Nodup :=
  set_invariant_bound_and_distinct_tags .touchOnly 1 1 2 [1, 2]
    [⟨true, 1, 0⟩, ⟨true, 2, 1⟩] (by decide)

theorem miss_victim_selection_priority_witness :
    findVictim
        [⟨true, 5, 3⟩, ⟨true, 7, 1⟩, ⟨true, 8, 1⟩, ⟨false, 0, 0⟩]
      = victimSpec
        [⟨true, 5, 3⟩, ⟨true, 7, 1⟩, ⟨true, 8, 1⟩, ⟨false, 0, 0⟩] :=
  miss_victim_selection_priority _ (by decide)
